import Mathlib

/-!
# microplane: `cmd/root.go` and `cmd/init.go`

A shallow embedding of the two source files of the `cmd` package and of the
Go library functions they call (`path.Join`, `path.Clean`, `filepath.Abs`,
`time.NewTicker`).

* Go strings are byte strings; the only bytes `path.Clean` inspects are `/` and
  `.`, both ASCII, so a string is modelled by its list of characters.
* `log.Fatal` and `log.Fatalf` end the process: a function that may call them
  returns either the message or its result.
* Package variables are passed explicitly (`Globals`); calls that leave the two
  files (`os`, `loadJSON`, `writeJSON`, `initialize.Initialize`, cobra) are
  parameters or are recorded as events.
* Times are natural numbers of nanoseconds (the unit of `time.Duration`) since the
  creation of `repoLimiter`.
-/

namespace Microplane

/-! ## Go's `path` package -/

/-- The logical content of the `lazybuf` of `path.Clean` (the bytes `buf[0:w]`,
so `w` is the length of `out`) together with the index `dotdot`. -/
structure CleanState where
  out : List Char
  dotdot : Nat
  deriving DecidableEq

/-- The inner loop of the `..` case of `path.Clean`:
`for out.w > dotdot && out.index(out.w) != '/' { out.w-- }`, started at `w`. -/
def backtrackLoop (out : List Char) (dotdot : Nat) : Nat → Nat
  | 0 => 0
  | w + 1 =>
    if dotdot < w + 1 ∧ out.getD (w + 1) '/' ≠ '/' then backtrackLoop out dotdot w
    else w + 1

/-- The `..` case of `path.Clean` after `r += 2`. -/
def dotdotStep (rooted : Bool) (st : CleanState) : CleanState :=
  if st.dotdot < st.out.length then
    { st with out := st.out.take (backtrackLoop st.out st.dotdot (st.out.length - 1)) }
  else if rooted = false then
    let out1 := if 0 < st.out.length then st.out ++ ['/'] else st.out
    { out := out1 ++ ['.', '.'], dotdot := (out1 ++ ['.', '.']).length }
  else st

/-- The real-path-element case of `path.Clean`: add a slash if needed, then copy
the bytes of the element. -/
def elemStep (rooted : Bool) (rest : List Char) (st : CleanState) : CleanState :=
  let out1 :=
    if (rooted = true ∧ st.out.length ≠ 1) ∨ (rooted = false ∧ st.out.length ≠ 0)
    then st.out ++ ['/'] else st.out
  { st with out := out1 ++ rest.takeWhile (fun c => c != '/') }

/-- The main loop `for r < n` of `path.Clean`; `rest` is `path[r:]`.  Every
iteration consumes at least one byte, so `rest.length` iterations suffice. -/
def cleanLoop (rooted : Bool) : Nat → List Char → CleanState → CleanState
  | 0, _, st => st
  | _ + 1, [], st => st
  | fuel + 1, c :: t, st =>
    if c = '/' then cleanLoop rooted fuel t st
    else if c = '.' ∧ (t = [] ∨ t.head? = some '/') then cleanLoop rooted fuel t st
    else if c = '.' ∧ t.head? = some '.' ∧ (t.tail = [] ∨ t.tail.head? = some '/') then
      cleanLoop rooted fuel t.tail (dotdotStep rooted st)
    else
      cleanLoop rooted fuel ((c :: t).dropWhile (fun c => c != '/')) (elemStep rooted (c :: t) st)

/-- Go's `path.Clean`. -/
def Clean (path : List Char) : List Char :=
  if path = [] then ['.']
  else
    let rooted : Bool := path.head? = some '/'
    let st0 : CleanState := if rooted then ⟨['/'], 1⟩ else ⟨[], 0⟩
    let st := cleanLoop rooted path.length (if rooted then path.tail else path) st0
    if st.out.length = 0 then ['.'] else st.out

/-- The buffer built by `path.Join` before it is cleaned: empty elements are
skipped until the buffer is non-empty, a `/` precedes every later element. -/
def joinBuf (elem : List (List Char)) : List Char :=
  elem.foldl
    (fun buf e =>
      if 0 < buf.length ∨ e ≠ [] then (if 0 < buf.length then buf ++ ['/'] else buf) ++ e
      else buf)
    []

/-- Go's `path.Join`. -/
def Join (elem : List (List Char)) : List Char :=
  if (elem.map List.length).sum = 0 then [] else Clean (joinBuf elem)

/-- Go's `path.Join` applied to strings. -/
def pathJoin (elem : List String) : String :=
  String.mk (Join (elem.map String.data))


/-! ## Go's `filepath` package on Unix -/

/-- A Go `error` as far as this code inspects it: its `Error()` text and the
answer of `os.IsNotExist`. -/
structure GoError where
  msg : String
  isNotExist : Bool
  deriving DecidableEq

/-- Go's `filepath.Join` on Unix: the elements from the first non-empty one on,
joined by `/` and cleaned (`filepath.Clean` is `path.Clean` there). -/
def filepathJoin : List (List Char) → List Char
  | [] => []
  | e :: rest => if e ≠ [] then Clean (List.intercalate ['/'] (e :: rest)) else filepathJoin rest

/-- Go's `filepath.Abs` on Unix; `getwd` is the result of `os.Getwd`. -/
def filepathAbs (getwd : Except GoError String) (path : String) : Except GoError String :=
  if path.data.head? = some '/' then .ok (String.mk (Clean path.data))
  else
    match getwd with
    | .error err => .error err
    | .ok wd => .ok (String.mk (filepathJoin [wd.data, path.data]))


/-! ## Data of the `cmd` package -/

/-- Modelled from the spec: `initialize.Repo`, declared in a package that is not
among the sources.  The code reads only `Name`; the provider-specific identity
fields are kept as one list. -/
structure Repo where
  Name : String
  identity : List (String × String)
  deriving DecidableEq

/-- Modelled from the spec: `initialize.Output`, the InitOutput record
(`version` and `repos`), declared in a package that is not among the sources. -/
structure Output where
  Version : String
  Repos : List Repo
  deriving DecidableEq

/-- The fields of `initialize.Input` that `initCmd.Run` sets. -/
structure Input where
  Query : String
  WorkDir : String
  Version : String
  RepoProvider : String
  ReposFromFile : String
  deriving DecidableEq

/-- The package variables of `cmd` declared in `root.go` and `init.go`. -/
structure Globals where
  workDir : String
  cliVersion : String
  repoProviderFlag : String
  initFlagReposFile : String
  deriving DecidableEq


/-! ## `cmd/root.go`: the package `init` function -/

/-- The operating-system calls of `init`, over a file-system state `σ`.
`getenv` is `os.Getenv` (an unset variable reads as `""`), `abs` is
`filepath.Abs`, `stat` gives the error of `os.Stat`, `mkdir` is `os.Mkdir`. -/
structure OS (σ : Type) where
  getenv : String → String
  abs : σ → String → Except GoError String
  stat : σ → String → Option GoError
  mkdir : σ → String → Nat → σ × Option GoError

/-- A call of `init` that reaches the file system. -/
inductive FsCall where
  | abs (path : String)
  | stat (path : String)
  | mkdir (path : String) (perm : Nat)
  deriving DecidableEq

/-- How `init` ends: the file-system calls it made in order, the file system it
leaves, and either the message of `log.Fatalf` or the package variables. -/
structure InitResult (σ : Type) where
  calls : List FsCall
  fs : σ
  result : Except String Globals

def bothSetMsg : String := "GITLAB_API_TOKEN and GITHUB_API_TOKEN can't be set both"

def neitherSetMsg : String :=
  "Neither GITHUB_API_TOKEN or GITLAB_API_TOKEN env var is not set.\n\t\t    In order to use microplane with Github, create a token (https://help.github.com/articles/creating-a-personal-access-token-for-the-command-line/) then set the env var.\n\t\t    In order to use microplane with Gitlab, create a token (https://docs.gitlab.com/ee/user/profile/personal_access_tokens.html) then set the env var."

/-- Lines 28-38 of `root.go`: the credential check, giving the value assigned to
`repoProviderFlag` or the message of `log.Fatalf`. -/
def selectProvider (getenv : String → String) : Except String String :=
  if getenv "GITLAB_API_TOKEN" ≠ "" ∧ getenv "GITHUB_API_TOKEN" ≠ "" then
    .error bothSetMsg
  else if getenv "GITHUB_API_TOKEN" ≠ "" then .ok "github"
  else if getenv "GITLAB_API_TOKEN" ≠ "" then .ok "gitlab"
  else .error neitherSetMsg

/-- The test `os.IsNotExist(err)` for a possibly nil error. -/
def isNotExist : Option GoError → Bool
  | none => false
  | some e => e.isNotExist

/-- Lines 40-74 of `root.go`: flag registration (which gives `initFlagReposFile`
its default `""`), then the resolution and creation of `workDir`. -/
def initWorkDir {σ : Type} (os : OS σ) (fs : σ) (provider : String) : InitResult σ :=
  match os.abs fs "./mp" with
  | .error err =>
    { calls := [.abs "./mp"], fs := fs,
      result := .error ("error finding workDir: " ++ err.msg ++ "\n") }
  | .ok workDir =>
    let g : Globals :=
      { workDir := workDir, cliVersion := "", repoProviderFlag := provider,
        initFlagReposFile := "" }
    if isNotExist (os.stat fs workDir) then
      match os.mkdir fs workDir 0o755 with
      | (fs1, some err) =>
        { calls := [.abs "./mp", .stat workDir, .mkdir workDir 0o755], fs := fs1,
          result := .error ("error creating workDir: " ++ err.msg ++ "\n") }
      | (fs1, none) =>
        { calls := [.abs "./mp", .stat workDir, .mkdir workDir 0o755], fs := fs1,
          result := .ok g }
    else
      { calls := [.abs "./mp", .stat workDir], fs := fs, result := .ok g }

/-- The package `init` function of `root.go`. -/
def init {σ : Type} (os : OS σ) (fs : σ) : InitResult σ :=
  match selectProvider os.getenv with
  | .error msg => { calls := [], fs := fs, result := .error msg }
  | .ok provider => initWorkDir os fs provider


/-! ## `cmd/root.go`: `Execute` and `outputPath` -/

/-- The function `outputPath` of `cmd/root.go`; the package variable `workDir` is passed
explicitly. -/
def outputPath (workDir repoName step : String) : String :=
  if step = "init" then pathJoin [workDir, "init.json"]
  else pathJoin [workDir, repoName, step, step ++ ".json"]

/-- What the file at a path holds, as `loadJSON` can tell. -/
inductive FileState where
  | absent
  | unparsable (err : String)
  | record (out : Output)
  deriving DecidableEq

/-- Modelled from the spec: `loadJSON` of package `cmd`, whose body is not among
the sources; the store read of the spec with its three outcomes: no such record (an
error that `os.IsNotExist` accepts), record present but unparsable (any other
error), record present and valid. -/
def loadJSON (store : String → FileState) (path : String) : Except GoError Output :=
  match store path with
  | .absent => .error ⟨"open " ++ path ++ ": no such file or directory", true⟩
  | .unparsable err => .error ⟨err, false⟩
  | .record out => .ok out

def versionMismatchMsg (workDir recorded version : String) : String :=
  "A workdir (" ++ workDir ++ ") exists, created with microplane version " ++ recorded ++
  ". This is incompatible with your version " ++ version ++
  ". Either run again using a compatible version, or remove the workdir and restart."

/-- The function `Execute` of `root.go`.  `load` is the call of `loadJSON`, `rootCmdExecute` the
call `rootCmd.Execute()` run with the package variables; the result is the message
of `log.Fatal` at the version gate, or what `rootCmd.Execute()` gave. -/
def Execute {ρ : Type} (load : String → Except GoError Output)
    (rootCmdExecute : Globals → ρ) (g : Globals) (version : String) : Except String ρ :=
  let g1 := { g with cliVersion := version }
  match load (outputPath g1.workDir "" "init") with
  | .error err =>
    if err.isNotExist = false then .error err.msg else .ok (rootCmdExecute g1)
  | .ok initOutput =>
    if initOutput.Version ≠ g1.cliVersion then
      .error (versionMismatchMsg g1.workDir initOutput.Version version)
    else .ok (rootCmdExecute g1)


/-! ## `cmd/init.go`: `initCmd.Run` -/

/-- What `initCmd.Run` does to the outside, in order. -/
inductive Event where
  | callInitialize (input : Input)
  | writeJSON (output : Output) (path : String)
  | println (line : String)
  deriving DecidableEq

/-- How `initCmd.Run` ends: its events, and the message of `log.Fatal` if it
ended the process. -/
structure RunResult where
  events : List Event
  fatal : Option String
  deriving DecidableEq

def usageMsg : String :=
  "to init via search, you must pass a search query. otherwise, specify a repos file with -f"

/-- The `Run` function of `initCmd`.  `Initialize` is `initialize.Initialize`,
`writeJSON` gives the error of the `writeJSON` call (`none` for nil). -/
def initCmdRun (Initialize : Input → Except String Output)
    (writeJSON : Output → String → Option String) (g : Globals) (args : List String) :
    RunResult :=
  if args.length = 0 ∧ g.initFlagReposFile = "" then { events := [], fatal := some usageMsg }
  else if args.length = 1 ∧ g.initFlagReposFile ≠ "" then
    { events := [], fatal := some usageMsg }
  else
    let query := if 0 < args.length then args.headD "" else ""
    let input : Input :=
      { Query := query, WorkDir := g.workDir, Version := g.cliVersion,
        RepoProvider := g.repoProviderFlag, ReposFromFile := g.initFlagReposFile }
    match Initialize input with
    | .error err => { events := [.callInitialize input], fatal := some err }
    | .ok output =>
      match writeJSON output (outputPath g.workDir "" "init") with
      | some err =>
        { events := [.callInitialize input, .writeJSON output (outputPath g.workDir "" "init")],
          fatal := some err }
      | none =>
        { events := [.callInitialize input, .writeJSON output (outputPath g.workDir "" "init")]
            ++ output.Repos.map (fun repo => .println repo.Name),
          fatal := none }

/-- The bytes on standard output: `fmt.Println` writes its argument and a newline. -/
def stdout : List Event → String
  | [] => ""
  | .println line :: rest => line ++ "\n" ++ stdout rest
  | _ :: rest => stdout rest

/-- The lines given to `fmt.Println`, in order. -/
def printed : List Event → List String
  | [] => []
  | .println line :: rest => line :: printed rest
  | _ :: rest => printed rest

/-- The records handed to `writeJSON`, with their paths. -/
def written : List Event → List (Output × String)
  | [] => []
  | .writeJSON output path :: rest => (output, path) :: written rest
  | _ :: rest => written rest

/-- The inputs handed to `initialize.Initialize`. -/
def initializeCalls : List Event → List Input
  | [] => []
  | .callInitialize input :: rest => input :: initializeCalls rest
  | _ :: rest => initializeCalls rest

/-- The call `rootCmd.Execute()` for the command line `mp init args --file fileFlag`:
cobra stores the flag in `initFlagReposFile`, checks `Args: cobra.RangeArgs(0, 1)`
and calls `Run`; with more than one argument it returns an error and `Run` is not
called. -/
def rootCmdExecuteInit (Initialize : Input → Except String Output)
    (writeJSON : Output → String → Option String) (fileFlag : String) (args : List String)
    (g : Globals) : Except String RunResult :=
  if args.length ≤ 1 then
    .ok (initCmdRun Initialize writeJSON { g with initFlagReposFile := fileFlag } args)
  else .error ("accepts between 0 and 1 arg(s), received " ++ toString args.length)

/-- The process `mp init args --file fileFlag`: the package `init` function, then
`Execute`.  The outer error is the message of a `log.Fatal` in `init` or at the
version gate, the inner one the error `Execute` returns. -/
def mpInit {σ : Type} (os : OS σ) (fs : σ) (load : String → Except GoError Output)
    (Initialize : Input → Except String Output)
    (writeJSON : Output → String → Option String)
    (version fileFlag : String) (args : List String) :
    Except String (Except String RunResult) :=
  match (init os fs).result with
  | .error msg => .error msg
  | .ok g => Execute load (rootCmdExecuteInit Initialize writeJSON fileFlag args) g version


/-! ## `cmd/root.go`: `repoLimiter` -/

/-- The constant `time.Millisecond`: a `time.Duration` counts nanoseconds. -/
def Millisecond : Nat := 1000000

/-- The time at which the ticker of period `d` sends its tick number `k` (the first
is number 1): the ticker is created at time 0, tick `k` is due at `k * d`, and the
runtime sends it `latency k` later.  Each latency is taken to be below one period,
so that no tick is skipped. -/
def tickSent (d : Nat) (latency : Nat → Nat) (k : Nat) : Nat := k * d + latency k

/-- The first tick sent after time `t`: tick `t / d` if it was due by `t` and is
still on its way, otherwise the tick after it. -/
def nextTick (d : Nat) (latency : Nat → Nat) (t : Nat) : Nat :=
  if 0 < t / d ∧ t < tickSent d latency (t / d) then tickSent d latency (t / d)
  else tickSent d latency (t / d + 1)

/-- The times at which receives from the channel of `time.NewTicker(d)` complete.
The channel holds at most one tick and a tick that finds it full is dropped, so
after a receive completes at `prev` the channel is empty until the first tick sent
after `prev`; a receive called at `a` completes when that tick is sent if it is
waiting by then, and at once if it comes later and finds the tick in the channel.
`arrivals` are the call times in the order the receives are served. -/
def permitTimes (d : Nat) (latency : Nat → Nat) : Nat → List Nat → List Nat
  | _, [] => []
  | prev, a :: rest =>
    max a (nextTick d latency prev) ::
      permitTimes d latency (max a (nextTick d latency prev)) rest

/-- The period of `repoLimiter`: `720 * time.Millisecond`. -/
def repoLimiterPeriod : Nat := 720 * Millisecond

/-- The permit times of `repoLimiter`, one permit per tick received. -/
def repoLimiterPermits (latency : Nat → Nat) (arrivals : List Nat) : List Nat :=
  permitTimes repoLimiterPeriod latency 0 arrivals


/-! ## Vocabulary of the statements -/

/-- Split a path at every `/`. -/
def segments : List Char → List (List Char)
  | [] => [[]]
  | c :: t =>
    if c = '/' then [] :: segments t
    else match segments t with
      | [] => [[c]]
      | s :: ss => (c :: s) :: ss

/-- Every segment preceded by a `/`. -/
def slashJoin : List (List Char) → List Char
  | [] => []
  | s :: ss => '/' :: (s ++ slashJoin ss)

/-- The segments separated by `/`. -/
def joinSegs : List (List Char) → List Char
  | [] => []
  | s :: ss => s ++ slashJoin ss

/-- A real path element: not empty, not `.`, not `..`. -/
def goodSeg (s : List Char) : Bool :=
  s ≠ [] && s ≠ ['.'] && s ≠ ['.', '.']

/-- A clean slash-separated name: every segment is a real path element. -/
def cleanName (r : String) : Prop :=
  ∀ s ∈ segments r.data, goodSeg s = true

instance (r : String) : Decidable (cleanName r) := by
  unfold cleanName; infer_instance

/-- A clean directory path, absolute or not: after an optional leading slash
every segment is a real path element. -/
def cleanDir (w : String) : Prop :=
  ∀ s ∈ segments (if w.data.head? = some '/' then w.data.tail else w.data), goodSeg s = true

instance (w : String) : Decidable (cleanDir w) := by
  unfold cleanDir; infer_instance

/-- The stages that have a record per repository. -/
def stages : List String := ["clone", "plan", "push", "merge", "status"]

/-- The resolution or creation of `workDir` fails: `filepath.Abs` returns an error,
or `os.Stat` reports that the directory does not exist and `os.Mkdir` returns an
error. -/
def workDirFails {σ : Type} (os : OS σ) (fs : σ) : Bool :=
  match os.abs fs "./mp" with
  | .error _ => true
  | .ok w => isNotExist (os.stat fs w) && (os.mkdir fs w 0o755).2.isSome

/-- The loop of `path.Clean` run to the end of its input. -/
def cleanRun (rooted : Bool) (rest : List Char) (st : CleanState) : CleanState :=
  cleanLoop rooted rest.length rest st

/-- The separator the real-element case writes before the element. -/
def sep (rooted : Bool) (st : CleanState) : List Char :=
  if (rooted = true ∧ st.out.length ≠ 1) ∨ (rooted = false ∧ st.out.length ≠ 0) then ['/'] else []

/-- What `path.Clean` has written, separator included, once it has read the
non-empty first element `w` of a join and stands at the slash that follows it. -/
def pathPrefix (w : List Char) : List Char :=
  if w = [] then []
  else
    let rooted : Bool := w.head? = some '/'
    let st := cleanRun rooted (if rooted then w.tail else w)
      (if rooted then ⟨['/'], 1⟩ else ⟨[], 0⟩)
    st.out ++ sep rooted st

/-- The loop invariant of `path.Clean` on a rooted path: the buffer is `/`
followed by real path elements, and `dotdot` is 1. -/
def RootedInv (st : CleanState) : Prop :=
  st.dotdot = 1 ∧ ∃ segs : List (List Char),
    (∀ s ∈ segs, goodSeg s = true ∧ '/' ∉ s) ∧ st.out = '/' :: joinSegs segs


/-! ## Concrete systems -/

/-- A working directory that cannot be written: exactly one token is set, `./mp`
does not exist and cannot be created. -/
def readOnlyDirOS : OS Unit where
  getenv := fun key => if key = "GITHUB_API_TOKEN" then "tok" else ""
  abs := fun _ _ => .ok "/srv/ro/mp"
  stat := fun _ _ => some ⟨"stat /srv/ro/mp: no such file or directory", true⟩
  mkdir := fun fs _ _ => (fs, some ⟨"mkdir /srv/ro/mp: permission denied", false⟩)

/-- A file system given by the list of its directories, with the current
directory `/home/u`. -/
def listOS (getenv : String → String) : OS (List String) where
  getenv := getenv
  abs := fun _ p => filepathAbs (.ok "/home/u") p
  stat := fun dirs p => if p ∈ dirs then none else some ⟨"stat " ++ p ++ ": no such file or directory", true⟩
  mkdir := fun dirs p _ => (p :: dirs, none)

/-! ## Lemmas on `path.Clean` and `path.Join` -/

theorem cleanLoop_fuel (rooted : Bool) :
    ∀ (f g : Nat) (rest : List Char) (st : CleanState),
      rest.length ≤ f → rest.length ≤ g →
      cleanLoop rooted f rest st = cleanLoop rooted g rest st := by
  intro f
  induction f with
  | zero =>
    intro g rest st hf _
    have : rest = [] := List.length_eq_zero.mp (Nat.le_zero.mp hf)
    subst this
    cases g <;> simp [cleanLoop]
  | succ f ih =>
    intro g rest st hf hg
    cases rest with
    | nil => cases g <;> simp [cleanLoop]
    | cons c t =>
      cases g with
      | zero => simp at hg
      | succ g =>
        simp only [List.length_cons, Nat.add_le_add_iff_right] at hf hg
        have ht : t.tail.length ≤ t.length := by simp
        simp only [cleanLoop]
        split_ifs with h1 h2 h3
        · exact ih g t st hf hg
        · exact ih g t st hf hg
        · exact ih g _ _ (ht.trans hf) (ht.trans hg)
        · have hd : ((c :: t).dropWhile (fun c => c != '/')).length ≤ t.length := by
            have hb : (c != '/') = true := by simp [h1]
            simp only [List.dropWhile, hb]
            exact (List.dropWhile_sublist _).length_le
          exact ih g _ _ (hd.trans hf) (hd.trans hg)

theorem cleanRun_nil (rooted : Bool) (st : CleanState) : cleanRun rooted [] st = st := by
  simp [cleanRun, cleanLoop]

theorem cleanRun_cons (rooted : Bool) (c : Char) (t : List Char) (st : CleanState) :
    cleanRun rooted (c :: t) st =
      if c = '/' then cleanRun rooted t st
      else if c = '.' ∧ (t = [] ∨ t.head? = some '/') then cleanRun rooted t st
      else if c = '.' ∧ t.head? = some '.' ∧ (t.tail = [] ∨ t.tail.head? = some '/') then
        cleanRun rooted t.tail (dotdotStep rooted st)
      else
        cleanRun rooted ((c :: t).dropWhile (fun c => c != '/')) (elemStep rooted (c :: t) st) := by
  simp only [cleanRun, List.length_cons, cleanLoop]
  split_ifs with h1 h2 h3
  · rfl
  · rfl
  · exact cleanLoop_fuel rooted _ _ _ _ (by simp) le_rfl
  · refine cleanLoop_fuel rooted _ _ _ _ ?_ le_rfl
    have hb : (c != '/') = true := by simp [h1]
    simp only [List.dropWhile, hb]
    exact (List.dropWhile_sublist _).length_le

theorem takeWhile_slash_append (l r : List Char) :
    (l ++ '/' :: r).takeWhile (fun c => c != '/') = l.takeWhile (fun c => c != '/') := by
  induction l with
  | nil => simp [List.takeWhile]
  | cons c t ih =>
    by_cases hc : c = '/'
    · simp [List.takeWhile, hc]
    · have hb : (c != '/') = true := by simp [hc]
      simp only [List.cons_append, List.takeWhile_cons, hb, if_true, ih]

theorem dropWhile_slash_append (l r : List Char) :
    (l ++ '/' :: r).dropWhile (fun c => c != '/') =
      l.dropWhile (fun c => c != '/') ++ '/' :: r := by
  induction l with
  | nil => simp [List.dropWhile]
  | cons c t ih =>
    by_cases hc : c = '/'
    · simp [List.dropWhile, hc]
    · have hb : (c != '/') = true := by simp [hc]
      simp only [List.cons_append, List.dropWhile_cons, hb, if_true, ih]

/-- What the loop does with a prefix that is followed by a `/` does not depend
on what comes after that `/`. -/
theorem cleanRun_split (rooted : Bool) (rest : List Char) :
    ∀ (n : Nat) (x : List Char) (st : CleanState), x.length ≤ n →
      cleanRun rooted (x ++ '/' :: rest) st =
        cleanRun rooted ('/' :: rest) (cleanRun rooted x st) := by
  intro n
  induction n with
  | zero =>
    intro x st hx
    have : x = [] := List.length_eq_zero.mp (Nat.le_zero.mp hx)
    subst this
    simp [cleanRun_nil]
  | succ n ih =>
    intro x st hx
    cases x with
    | nil => simp [cleanRun_nil]
    | cons c t =>
      simp only [List.length_cons, Nat.add_le_add_iff_right] at hx
      rw [List.cons_append, cleanRun_cons rooted c (t ++ '/' :: rest), cleanRun_cons rooted c t]
      have e1 : (t ++ '/' :: rest = [] ∨ (t ++ '/' :: rest).head? = some '/') ↔
          (t = [] ∨ t.head? = some '/') := by
        cases t <;> simp
      have e2 : (t ++ '/' :: rest).head? = some '.' ↔ t.head? = some '.' := by
        cases t <;> simp
      have e3 : t.head? = some '.' →
          (((t ++ '/' :: rest).tail = [] ∨ (t ++ '/' :: rest).tail.head? = some '/') ↔
          (t.tail = [] ∨ t.tail.head? = some '/')) := by
        intro h
        cases t with
        | nil => simp at h
        | cons d u => cases u <;> simp
      have e4 : t.head? = some '.' → (t ++ '/' :: rest).tail = t.tail ++ '/' :: rest := by
        intro h
        cases t with
        | nil => simp at h
        | cons d u => simp
      by_cases h1 : c = '/'
      · simp only [h1, if_true]
        exact ih t st hx
      · simp only [h1, if_false]
        by_cases h2 : c = '.' ∧ (t = [] ∨ t.head? = some '/')
        · rw [if_pos (by rw [e1]; exact h2), if_pos h2]
          exact ih t st hx
        · rw [if_neg (by rw [e1]; exact h2), if_neg h2]
          by_cases h3 : c = '.' ∧ t.head? = some '.' ∧ (t.tail = [] ∨ t.tail.head? = some '/')
          · rw [if_pos (by rw [e2, e3 h3.2.1]; exact h3), if_pos h3, e4 h3.2.1]
            exact ih t.tail _ ((by simp : t.tail.length ≤ t.length).trans hx)
          · have h3' : ¬ (c = '.' ∧ (t ++ '/' :: rest).head? = some '.' ∧
                ((t ++ '/' :: rest).tail = [] ∨ (t ++ '/' :: rest).tail.head? = some '/')) := by
              intro h
              apply h3
              have ht := e2.mp h.2.1
              exact ⟨h.1, ht, (e3 ht).mp h.2.2⟩
            rw [if_neg h3', if_neg h3]
            have hb : (c != '/') = true := by simp [h1]
            have hel : elemStep rooted (c :: (t ++ '/' :: rest)) st = elemStep rooted (c :: t) st := by
              simp only [elemStep]
              rw [← List.cons_append, takeWhile_slash_append]
            rw [hel, ← List.cons_append, dropWhile_slash_append]
            refine ih _ _ (le_trans ?_ hx)
            simp only [List.dropWhile, hb]
            exact (List.dropWhile_sublist _).length_le

theorem elemStep_out (rooted : Bool) (rest : List Char) (st : CleanState) :
    elemStep rooted rest st =
      { st with out := st.out ++ sep rooted st ++ rest.takeWhile (fun c => c != '/') } := by
  simp only [elemStep, sep]
  split_ifs <;> simp

theorem takeWhile_noSlash (s : List Char) (hs : '/' ∉ s) :
    s.takeWhile (fun c => c != '/') = s := by
  rw [List.takeWhile_eq_self_iff]
  intro c hc
  have : c ≠ '/' := fun h => hs (h ▸ hc)
  simp [this]

theorem dropWhile_noSlash (s : List Char) (hs : '/' ∉ s) :
    s.dropWhile (fun c => c != '/') = [] := by
  rw [List.dropWhile_eq_nil_iff]
  intro c hc
  have : c ≠ '/' := fun h => hs (h ▸ hc)
  simp [this]

/-- A real path element on its own is copied to the buffer. -/
theorem cleanRun_seg (rooted : Bool) (s : List Char) (st : CleanState)
    (hg : goodSeg s = true) (hs : '/' ∉ s) :
    cleanRun rooted s st = { st with out := st.out ++ sep rooted st ++ s } := by
  cases s with
  | nil => simp [goodSeg] at hg
  | cons c t =>
    have hc : c ≠ '/' := fun h => hs (by simp [h])
    have ht : '/' ∉ t := fun h => hs (List.mem_cons_of_mem _ h)
    have h2 : ¬ (c = '.' ∧ (t = [] ∨ t.head? = some '/')) := by
      rintro ⟨rfl, h | h⟩
      · subst h; simp [goodSeg] at hg
      · cases t with
        | nil => simp at h
        | cons d u => simp at h; subst h; simp at ht
    have h3 : ¬ (c = '.' ∧ t.head? = some '.' ∧ (t.tail = [] ∨ t.tail.head? = some '/')) := by
      rintro ⟨rfl, h, h'⟩
      cases t with
      | nil => simp at h
      | cons d u =>
        simp at h; subst h
        rcases h' with h' | h'
        · simp at h'; subst h'; simp [goodSeg] at hg
        · cases u with
          | nil => simp at h'
          | cons e v => simp at h'; subst h'; simp at ht
    rw [cleanRun_cons, if_neg hc, if_neg h2, if_neg h3, dropWhile_noSlash _ hs, cleanRun_nil,
      elemStep_out, takeWhile_noSlash _ hs]

theorem sep_after_seg (rooted : Bool) (st : CleanState) (s : List Char) (hs : s ≠ []) :
    sep rooted { st with out := st.out ++ sep rooted st ++ s } = ['/'] := by
  have h0 : 0 < s.length := List.length_pos.mpr hs
  have hl : (sep rooted st).length ≤ 1 := by
    unfold sep; split_ifs <;> simp
  have h1 : rooted = true → st.out.length = 1 ∨ (sep rooted st).length = 1 := by
    intro hr
    by_cases h : st.out.length = 1
    · exact Or.inl h
    · right; unfold sep; rw [if_pos (Or.inl ⟨hr, h⟩)]; rfl
  generalize sep rooted st = L at hl h1 ⊢
  unfold sep
  simp only [List.length_append]
  rw [if_pos]
  cases rooted
  · right; exact ⟨rfl, by omega⟩
  · left
    refine ⟨rfl, ?_⟩
    rcases h1 rfl with h | h <;> omega

/-- Real path elements separated by slashes are copied to the buffer as they are. -/
theorem cleanRun_joinSegs (rooted : Bool) :
    ∀ (segs : List (List Char)) (st : CleanState), segs ≠ [] →
      (∀ s ∈ segs, goodSeg s = true ∧ '/' ∉ s) →
      cleanRun rooted (joinSegs segs) st =
        { st with out := st.out ++ sep rooted st ++ joinSegs segs } := by
  intro segs
  induction segs with
  | nil => intro st h; exact absurd rfl h
  | cons s ss ih =>
    intro st _ hall
    have hs := hall s (List.mem_cons_self _ _)
    cases ss with
    | nil => simp only [joinSegs, slashJoin, List.append_nil]; exact cleanRun_seg rooted s st hs.1 hs.2
    | cons s2 ss2 =>
      have hss : ∀ x ∈ s2 :: ss2, goodSeg x = true ∧ '/' ∉ x :=
        fun x hx => hall x (List.mem_cons_of_mem _ hx)
      have hne : s ≠ [] := by intro h; subst h; simp [goodSeg] at hs
      have e : joinSegs (s :: s2 :: ss2) = s ++ '/' :: joinSegs (s2 :: ss2) := by
        simp [joinSegs, slashJoin]
      rw [e, cleanRun_split rooted _ s.length s st le_rfl, cleanRun_cons, if_pos rfl,
        cleanRun_seg rooted s st hs.1 hs.2, ih _ (by simp) hss]
      simp only [sep_after_seg rooted st s hne]
      simp

theorem Clean_eq_cleanRun (path : List Char) (h : path ≠ []) :
    Clean path =
      let rooted : Bool := path.head? = some '/'
      let st := cleanRun rooted (if rooted then path.tail else path)
        (if rooted then ⟨['/'], 1⟩ else ⟨[], 0⟩)
      if st.out.length = 0 then ['.'] else st.out := by
  simp only [Clean, if_neg h, cleanRun]
  have e : ∀ (b : Bool) (st0 : CleanState),
      cleanLoop b path.length (if b = true then path.tail else path) st0 =
      cleanLoop b (if b = true then path.tail else path).length
        (if b = true then path.tail else path) st0 := by
    intro b st0
    apply cleanLoop_fuel _ _ _ _ _ _ le_rfl
    split_ifs <;> simp
  rw [e]

theorem slashJoin_append (a b : List (List Char)) :
    slashJoin (a ++ b) = slashJoin a ++ slashJoin b := by
  induction a with
  | nil => rfl
  | cons s ss ih => simp [slashJoin, ih]

theorem joinSegs_append (a b : List (List Char)) (ha : a ≠ []) :
    joinSegs (a ++ b) = joinSegs a ++ slashJoin b := by
  cases a with
  | nil => exact absurd rfl ha
  | cons s ss => simp [joinSegs, slashJoin_append]

theorem slashJoin_eq (segs : List (List Char)) (h : segs ≠ []) :
    slashJoin segs = '/' :: joinSegs segs := by
  cases segs with
  | nil => exact absurd rfl h
  | cons s ss => simp [joinSegs, slashJoin]

theorem joinSegs_ne_nil (segs : List (List Char)) (h : segs ≠ [])
    (hall : ∀ s ∈ segs, goodSeg s = true ∧ '/' ∉ s) : joinSegs segs ≠ [] := by
  cases segs with
  | nil => exact absurd rfl h
  | cons s ss =>
    have hs := (hall s (List.mem_cons_self _ _)).1
    intro hj
    simp only [joinSegs, List.append_eq_nil] at hj
    rw [hj.1] at hs
    simp [goodSeg] at hs

theorem joinSegs_head (segs : List (List Char)) (h : segs ≠ [])
    (hall : ∀ s ∈ segs, goodSeg s = true ∧ '/' ∉ s) :
    (joinSegs segs).head? ≠ some '/' := by
  cases segs with
  | nil => exact absurd rfl h
  | cons s ss =>
    have hs := hall s (List.mem_cons_self _ _)
    cases s with
    | nil => simp [goodSeg] at hs
    | cons c t =>
      simp only [joinSegs, List.cons_append, List.head?_cons, ne_eq, Option.some.injEq]
      intro hc
      exact hs.2 (by simp [hc])

/-- A path of real elements is already clean. -/
theorem Clean_joinSegs (segs : List (List Char)) (h : segs ≠ [])
    (hall : ∀ s ∈ segs, goodSeg s = true ∧ '/' ∉ s) :
    Clean (joinSegs segs) = joinSegs segs := by
  have hne := joinSegs_ne_nil segs h hall
  have hh := joinSegs_head segs h hall
  rw [Clean_eq_cleanRun _ hne]
  have hr : decide ((joinSegs segs).head? = some '/') = false := by simpa using hh
  simp only [hr, Bool.false_eq_true, if_false]
  rw [cleanRun_joinSegs false segs _ h hall]
  simp [sep, hne]

/-- Real elements joined after a non-empty first element are copied as they are. -/
theorem Clean_append_slashJoin (w : List Char) (hw : w ≠ []) (segs : List (List Char))
    (h : segs ≠ []) (hall : ∀ s ∈ segs, goodSeg s = true ∧ '/' ∉ s) :
    Clean (w ++ slashJoin segs) = pathPrefix w ++ joinSegs segs := by
  have hne : w ++ slashJoin segs ≠ [] := by simp [hw]
  have hj := joinSegs_ne_nil segs h hall
  rw [Clean_eq_cleanRun _ hne]
  obtain ⟨c, t, rfl⟩ := List.exists_cons_of_ne_nil hw
  simp only [pathPrefix, if_neg hw, List.cons_append, List.head?_cons, List.tail_cons,
    slashJoin_eq segs h]
  by_cases hc : c = '/'
  · subst hc
    simp only [decide_True, if_true]
    rw [cleanRun_split true _ t.length t _ le_rfl, cleanRun_cons, if_pos rfl,
      cleanRun_joinSegs true segs _ h hall]
    simp [hj]
  · have hd : decide (some c = some '/') = false := by simp [hc]
    simp only [hd, Bool.false_eq_true, if_false]
    rw [← List.cons_append, cleanRun_split false _ (c :: t).length (c :: t) _ le_rfl,
      cleanRun_cons _ '/', if_pos rfl, cleanRun_joinSegs false segs _ h hall]
    simp [hj]

theorem segments_ne_nil (l : List Char) : segments l ≠ [] := by
  induction l with
  | nil => simp [segments]
  | cons c t ih =>
    simp only [segments]
    split_ifs
    · simp
    · split <;> simp

theorem joinSegs_segments (l : List Char) : joinSegs (segments l) = l := by
  induction l with
  | nil => simp [segments, joinSegs, slashJoin]
  | cons c t ih =>
    simp only [segments]
    split_ifs with hc
    · subst hc
      simp only [joinSegs, List.nil_append]
      rw [slashJoin_eq _ (segments_ne_nil t), ih]
    · cases hseg : segments t with
      | nil => exact absurd hseg (segments_ne_nil t)
      | cons s ss =>
        rw [hseg] at ih
        simp only [joinSegs] at ih ⊢
        rw [List.cons_append, ih]

theorem segments_noSlash (l : List Char) : ∀ s ∈ segments l, '/' ∉ s := by
  induction l with
  | nil => simp [segments]
  | cons c t ih =>
    simp only [segments]
    split_ifs with hc
    · intro s hs
      rcases List.mem_cons.mp hs with h | h
      · subst h; simp
      · exact ih s h
    · cases hseg : segments t with
      | nil => exact absurd hseg (segments_ne_nil t)
      | cons s ss =>
        rw [hseg] at ih
        intro x hx
        rcases List.mem_cons.mp hx with h | h
        · subst h
          intro hm
          rcases List.mem_cons.mp hm with h1 | h1
          · exact hc h1.symm
          · exact ih s (List.mem_cons_self _ _) h1
        · exact ih x (List.mem_cons_of_mem _ h)

theorem segments_joinSegs :
    ∀ (segs : List (List Char)), segs ≠ [] → (∀ s ∈ segs, '/' ∉ s) →
      segments (joinSegs segs) = segs := by
  intro segs
  induction segs with
  | nil => intro h; exact absurd rfl h
  | cons s ss ih =>
    intro _ hall
    have hss : ∀ x ∈ ss, '/' ∉ x := fun x hx => hall x (List.mem_cons_of_mem _ hx)
    have hs := hall s (List.mem_cons_self _ _)
    have hrest : segments (slashJoin ss) = [] :: ss := by
      cases ss with
      | nil => simp [slashJoin, segments]
      | cons s2 ss2 =>
        have := ih (by simp) hss
        simp only [joinSegs] at this
        simp [slashJoin, segments, this]
    clear ih hall
    induction s with
    | nil => simpa [joinSegs] using hrest
    | cons c t iht =>
      have hc : c ≠ '/' := fun h => hs (by simp [h])
      have ht : '/' ∉ t := fun h => hs (List.mem_cons_of_mem _ h)
      have := iht (by simp) ht
      simp only [joinSegs] at this ⊢
      rw [List.cons_append]
      simp only [segments, if_neg hc]
      rw [this]

theorem joinBuf_two (w a : List Char) (ha : a ≠ []) :
    joinBuf [w, a] = if w = [] then a else w ++ slashJoin [a] := by
  cases w with
  | nil => simp [joinBuf, ha]
  | cons c t => simp [joinBuf, slashJoin]

theorem joinBuf_four (w r s sj : List Char) (hr : r ≠ []) :
    joinBuf [w, r, s, sj] =
      if w = [] then r ++ slashJoin [s, sj] else w ++ '/' :: (r ++ slashJoin [s, sj]) := by
  have hl : 0 < r.length := List.length_pos.mpr hr
  cases w with
  | nil => simp [joinBuf, hr, hl, slashJoin]
  | cons c t => simp [joinBuf, slashJoin]

/-- The result of `path.Join` on a first element and one real path element. -/
theorem Join_two (w a : List Char) (hg : goodSeg a = true) (hs : '/' ∉ a) :
    Join [w, a] = pathPrefix w ++ joinSegs [a] := by
  have ha : a ≠ [] := by intro h; subst h; simp [goodSeg] at hg
  have hl : 0 < a.length := List.length_pos.mpr ha
  have hall : ∀ x ∈ [a], goodSeg x = true ∧ '/' ∉ x := by
    intro x hx; simp at hx; subst hx; exact ⟨hg, hs⟩
  have hsum : ¬ ((([w, a] : List (List Char)).map List.length).sum = 0) := by
    simp only [List.map, List.sum_cons, List.sum_nil]; omega
  rw [Join, if_neg hsum, joinBuf_two w a ha]
  by_cases hw : w = []
  · subst hw
    have := Clean_joinSegs [a] (by simp) hall
    simp only [joinSegs, slashJoin, List.append_nil] at this
    simp [pathPrefix, joinSegs, slashJoin, this]
  · rw [if_neg hw, Clean_append_slashJoin w hw [a] (by simp) hall]

/-- The result of `path.Join` on a first element, a clean name and two real path
elements. -/
theorem Join_four (w s sj : List Char) (rs : List (List Char)) (hrs : rs ≠ [])
    (hall : ∀ x ∈ rs ++ [s, sj], goodSeg x = true ∧ '/' ∉ x) :
    Join [w, joinSegs rs, s, sj] = pathPrefix w ++ joinSegs (rs ++ [s, sj]) := by
  have hne : rs ++ [s, sj] ≠ [] := by simp
  have hr : joinSegs rs ≠ [] :=
    joinSegs_ne_nil rs hrs (fun x hx => hall x (List.mem_append_left _ hx))
  have hl : 0 < (joinSegs rs).length := List.length_pos.mpr hr
  have hsum : ¬ ((([w, joinSegs rs, s, sj] : List (List Char)).map List.length).sum = 0) := by
    simp only [List.map, List.sum_cons, List.sum_nil]; omega
  rw [Join, if_neg hsum, joinBuf_four w _ s sj hr, ← joinSegs_append rs [s, sj] hrs]
  by_cases hw : w = []
  · subst hw
    simp only [if_true]
    rw [Clean_joinSegs _ hne hall]
    simp [pathPrefix]
  · rw [if_neg hw, ← slashJoin_eq _ hne, Clean_append_slashJoin w hw _ hne hall]

/-- After a clean directory path the next element follows one slash. -/
theorem pathPrefix_cleanDir (w : String) (hw : cleanDir w) :
    pathPrefix w.data = w.data ++ ['/'] := by
  unfold cleanDir at hw
  by_cases hr : w.data.head? = some '/'
  · rw [if_pos hr] at hw
    obtain ⟨c, t, hct⟩ : ∃ c t, w.data = c :: t := by
      cases hd : w.data with
      | nil => rw [hd] at hr; simp at hr
      | cons c t => exact ⟨c, t, rfl⟩
    rw [hct] at hr hw ⊢
    simp only [List.head?_cons, Option.some.injEq] at hr
    subst hr
    simp only [List.tail_cons] at hw
    have hall : ∀ x ∈ segments t, goodSeg x = true ∧ '/' ∉ x :=
      fun x hx => ⟨hw x hx, segments_noSlash t x hx⟩
    have hrun := cleanRun_joinSegs true (segments t) ⟨['/'], 1⟩ (segments_ne_nil t) hall
    rw [joinSegs_segments] at hrun
    have ht : t ≠ [] := by
      have := joinSegs_ne_nil _ (segments_ne_nil t) hall
      rwa [joinSegs_segments] at this
    have hsep := sep_after_seg true ⟨['/'], 1⟩ t ht
    simp only [pathPrefix, List.head?_cons, List.tail_cons, decide_True, if_true]
    rw [if_neg (by simp), hrun, hsep]
    simp [sep]
  · rw [if_neg hr] at hw
    have hall : ∀ x ∈ segments w.data, goodSeg x = true ∧ '/' ∉ x :=
      fun x hx => ⟨hw x hx, segments_noSlash _ x hx⟩
    have hrun := cleanRun_joinSegs false (segments w.data) ⟨[], 0⟩ (segments_ne_nil _) hall
    rw [joinSegs_segments] at hrun
    have ht : w.data ≠ [] := by
      have := joinSegs_ne_nil _ (segments_ne_nil w.data) hall
      rwa [joinSegs_segments] at this
    have hsep := sep_after_seg false ⟨[], 0⟩ w.data ht
    have hd : decide (w.data.head? = some '/') = false := by simp [hr]
    simp only [pathPrefix, if_neg ht, hd, Bool.false_eq_true, if_false]
    rw [hrun, hsep]
    simp [sep]

/-! ## Claims C4 and C10: `outputPath` -/

theorem stages_good : ∀ s ∈ stages, s ≠ "init" ∧
    (goodSeg s.data = true ∧ '/' ∉ s.data) ∧
    (goodSeg (s ++ ".json").data = true ∧ '/' ∉ (s ++ ".json").data) := by
  decide

/-- The path of a stage record as a prefix fixed by `workDir` followed by the
segments of the repository name, the stage and the file name. -/
theorem outputPath_stage (workDir repoName stage : String) (hr : cleanName repoName)
    (hs : stage ∈ stages) :
    (outputPath workDir repoName stage).data =
      pathPrefix workDir.data ++
        joinSegs (segments repoName.data ++ [stage.data, (stage ++ ".json").data]) := by
  obtain ⟨hne, hg1, hg2⟩ := stages_good stage hs
  have hall : ∀ x ∈ segments repoName.data ++ [stage.data, (stage ++ ".json").data],
      goodSeg x = true ∧ '/' ∉ x := by
    intro x hx
    rcases List.mem_append.mp hx with h | h
    · exact ⟨hr x h, segments_noSlash _ x h⟩
    · simp only [List.mem_cons, List.mem_singleton, List.not_mem_nil, or_false] at h
      rcases h with h | h <;> subst h <;> assumption
  have := Join_four workDir.data stage.data (stage ++ ".json").data (segments repoName.data)
    (segments_ne_nil _) hall
  rw [joinSegs_segments] at this
  simp only [outputPath, if_neg hne, pathJoin, List.map]
  exact this

/-- The path of the sentinel record as the same prefix followed by `init.json`. -/
theorem outputPath_init (workDir repoName : String) :
    (outputPath workDir repoName "init").data =
      pathPrefix workDir.data ++ joinSegs ["init.json".data] := by
  have := Join_two workDir.data "init.json".data (by decide) (by decide)
  simp only [outputPath, if_true, pathJoin, List.map]
  exact this

/-- Claim C4: for a clean workflow directory path `workDir`, `outputPath repoName "init"`
is `workDir/init.json` whatever the repository name, and for a clean repository name
and a stage among clone, plan, push, merge, status, `outputPath repoName stage` is
`workDir/repoName/stage/stage.json`. -/
theorem C4_outputPath_layout (workDir repoName : String) (hw : cleanDir workDir) :
    outputPath workDir repoName "init" = workDir ++ "/init.json" ∧
    (cleanName repoName → ∀ stage ∈ stages,
      outputPath workDir repoName stage =
        workDir ++ "/" ++ repoName ++ "/" ++ stage ++ "/" ++ stage ++ ".json") := by
  constructor
  · apply String.ext
    rw [outputPath_init, pathPrefix_cleanDir workDir hw]
    simp [joinSegs, slashJoin, String.data_append]
  · intro hr stage hs
    apply String.ext
    rw [outputPath_stage workDir repoName stage hr hs, pathPrefix_cleanDir workDir hw,
      joinSegs_append _ _ (segments_ne_nil _), joinSegs_segments]
    simp [slashJoin, String.data_append]

theorem C4_outputPath_layout_witness :
    cleanDir "/home/u/mp" ∧ cleanName "org/a" ∧ "clone" ∈ stages ∧
    outputPath "/home/u/mp" "org/a" "init" = "/home/u/mp/init.json" ∧
    outputPath "/home/u/mp" "org/a" "clone" = "/home/u/mp/org/a/clone/clone.json" :=
  ⟨by decide, by decide, by decide,
    (C4_outputPath_layout "/home/u/mp" "org/a" (by decide)).1,
    (C4_outputPath_layout "/home/u/mp" "org/a" (by decide)).2 (by decide) "clone" (by decide)⟩

/-- Claim C10: store paths partition the workflow directory by (repo, stage): for clean
repository names and stages among clone, plan, push, merge, status, equal paths
come from equal keys, and no such path is the sentinel path `outputPath "" "init"`. -/
theorem C10_outputPath_injective (workDir r1 s1 r2 s2 : String)
    (h1 : cleanName r1) (h2 : cleanName r2) (hs1 : s1 ∈ stages) (hs2 : s2 ∈ stages) :
    (outputPath workDir r1 s1 = outputPath workDir r2 s2 → r1 = r2 ∧ s1 = s2) ∧
    outputPath workDir r1 s1 ≠ outputPath workDir "" "init" := by
  have good : ∀ (r s : String), cleanName r → s ∈ stages →
      ∀ x ∈ segments r.data ++ [s.data, (s ++ ".json").data], '/' ∉ x := by
    intro r s hr hs x hx
    obtain ⟨_, hg1, hg2⟩ := stages_good s hs
    rcases List.mem_append.mp hx with h | h
    · exact segments_noSlash _ x h
    · simp only [List.mem_cons, List.mem_singleton, List.not_mem_nil, or_false] at h
      rcases h with h | h <;> subst h
      · exact hg1.2
      · exact hg2.2
  constructor
  · intro heq
    have hd := congrArg String.data heq
    rw [outputPath_stage workDir r1 s1 h1 hs1, outputPath_stage workDir r2 s2 h2 hs2] at hd
    have hj := List.append_cancel_left hd
    have hseg := congrArg segments hj
    rw [segments_joinSegs _ (by simp) (good r1 s1 h1 hs1),
      segments_joinSegs _ (by simp) (good r2 s2 h2 hs2)] at hseg
    have hsplit := List.append_inj' hseg (by simp)
    have hr : r1.data = r2.data := by
      rw [← joinSegs_segments r1.data, ← joinSegs_segments r2.data, hsplit.1]
    have hs : s1.data = s2.data := by
      have := hsplit.2
      simp only [List.cons.injEq] at this
      exact this.1
    exact ⟨String.ext hr, String.ext hs⟩
  · intro heq
    have hd := congrArg String.data heq
    rw [outputPath_stage workDir r1 s1 h1 hs1, outputPath_init] at hd
    have hj := List.append_cancel_left hd
    have hseg := congrArg segments hj
    rw [segments_joinSegs _ (by simp) (good r1 s1 h1 hs1),
      segments_joinSegs _ (by simp) (by decide)] at hseg
    have hlen := congrArg List.length hseg
    simp at hlen

theorem C10_outputPath_injective_witness :
    cleanName "org/a" ∧ cleanName "org/b" ∧ "clone" ∈ stages ∧ "plan" ∈ stages ∧
    ((outputPath "/home/u/mp" "org/a" "clone" = outputPath "/home/u/mp" "org/b" "plan" →
        "org/a" = "org/b" ∧ "clone" = "plan") ∧
      outputPath "/home/u/mp" "org/a" "clone" ≠ outputPath "/home/u/mp" "" "init") :=
  ⟨by decide, by decide, by decide, by decide,
    C10_outputPath_injective "/home/u/mp" "org/a" "clone" "org/b" "plan"
      (by decide) (by decide) (by decide) (by decide)⟩

/-! ## Claims C2 and C8: the package `init` function -/

theorem selectProvider_error_iff (getenv : String → String) :
    (∃ msg, selectProvider getenv = .error msg) ↔
      (getenv "GITHUB_API_TOKEN" ≠ "" ∧ getenv "GITLAB_API_TOKEN" ≠ "") ∨
      (getenv "GITHUB_API_TOKEN" = "" ∧ getenv "GITLAB_API_TOKEN" = "") := by
  unfold selectProvider
  by_cases h1 : getenv "GITHUB_API_TOKEN" = "" <;> by_cases h2 : getenv "GITLAB_API_TOKEN" = "" <;>
    simp [h1, h2]

theorem selectProvider_ok (getenv : String → String) (p : String)
    (h : selectProvider getenv = .ok p) :
    (getenv "GITHUB_API_TOKEN" ≠ "" ∧ getenv "GITLAB_API_TOKEN" = "" ∧ p = "github") ∨
    (getenv "GITHUB_API_TOKEN" = "" ∧ getenv "GITLAB_API_TOKEN" ≠ "" ∧ p = "gitlab") := by
  unfold selectProvider at h
  by_cases h1 : getenv "GITHUB_API_TOKEN" = "" <;> by_cases h2 : getenv "GITLAB_API_TOKEN" = "" <;>
    simp [h1, h2] at h <;> simp [h1, h2, h.symm]

theorem initWorkDir_ok_flag {σ : Type} (os : OS σ) (fs : σ) (p : String) (g : Globals)
    (h : (initWorkDir os fs p).result = .ok g) : g.repoProviderFlag = p := by
  unfold initWorkDir at h
  split at h
  · simp at h
  · split_ifs at h
    · split at h
      · simp at h
      · simp at h; rw [← h]
    · simp at h; rw [← h]

theorem initWorkDir_error_iff {σ : Type} (os : OS σ) (fs : σ) (p : String) :
    (∃ msg, (initWorkDir os fs p).result = .error msg) ↔ workDirFails os fs = true := by
  unfold initWorkDir workDirFails
  cases habs : os.abs fs "./mp" with
  | error err => simp
  | ok w =>
    by_cases hst : isNotExist (os.stat fs w) = true
    · simp only [hst, if_true, Bool.true_and]
      rcases hmk : os.mkdir fs w 0o755 with ⟨fs1, _ | err⟩ <;> simp
    · simp [hst]

/-- Claim C2, as stated, fails: with exactly one token set the package `init`
function still ends in `log.Fatalf` when `./mp` cannot be created. -/
theorem C2_init_fatal_with_one_token :
    ¬ ((∃ msg, (init readOnlyDirOS ()).result = .error msg) ↔
        ((readOnlyDirOS.getenv "GITHUB_API_TOKEN" ≠ "" ∧
            readOnlyDirOS.getenv "GITLAB_API_TOKEN" ≠ "") ∨
          (readOnlyDirOS.getenv "GITHUB_API_TOKEN" = "" ∧
            readOnlyDirOS.getenv "GITLAB_API_TOKEN" = ""))) := by
  intro h
  have hfatal : ∃ msg, (init readOnlyDirOS ()).result = .error msg :=
    ⟨"error creating workDir: mkdir /srv/ro/mp: permission denied\n", rfl⟩
  have := h.mp hfatal
  revert this
  decide

/-- Claim C2, amended: the package `init` function ends in `log.Fatalf` if and only
if both tokens are set, or neither is, or the resolution or creation of the workflow
directory fails; the credential check itself fails exactly when both or neither
token is set. -/
theorem C2_init_fatal_iff {σ : Type} (os : OS σ) (fs : σ) :
    ((∃ msg, selectProvider os.getenv = .error msg) ↔
      (os.getenv "GITHUB_API_TOKEN" ≠ "" ∧ os.getenv "GITLAB_API_TOKEN" ≠ "") ∨
      (os.getenv "GITHUB_API_TOKEN" = "" ∧ os.getenv "GITLAB_API_TOKEN" = "")) ∧
    ((∃ msg, (init os fs).result = .error msg) ↔
      ((os.getenv "GITHUB_API_TOKEN" ≠ "" ∧ os.getenv "GITLAB_API_TOKEN" ≠ "") ∨
        (os.getenv "GITHUB_API_TOKEN" = "" ∧ os.getenv "GITLAB_API_TOKEN" = "")) ∨
      workDirFails os fs = true) := by
  refine ⟨selectProvider_error_iff os.getenv, ?_⟩
  rw [← selectProvider_error_iff os.getenv]
  unfold init
  cases hsel : selectProvider os.getenv with
  | error msg => simp
  | ok p => simpa using initWorkDir_error_iff os fs p

/-- Claim C8: when both tokens are set or neither is, the package `init` function ends
in `log.Fatalf` without having resolved, stat'ed or created the workflow directory,
and leaves the file system as it found it. -/
theorem C8_invalid_credentials_no_disk_activity {σ : Type} (os : OS σ) (fs : σ)
    (hbad : (os.getenv "GITHUB_API_TOKEN" ≠ "" ∧ os.getenv "GITLAB_API_TOKEN" ≠ "") ∨
      (os.getenv "GITHUB_API_TOKEN" = "" ∧ os.getenv "GITLAB_API_TOKEN" = "")) :
    (∃ msg, (init os fs).result = .error msg) ∧ (init os fs).calls = [] ∧
      (init os fs).fs = fs := by
  obtain ⟨msg, hmsg⟩ := (selectProvider_error_iff os.getenv).mpr hbad
  simp [init, hmsg]

theorem C8_invalid_credentials_no_disk_activity_witness :
    (∃ msg, (init (listOS (fun _ => "")) []).result = .error msg) ∧
      (init (listOS (fun _ => "")) []).calls = [] ∧
      (init (listOS (fun _ => "")) []).fs = [] :=
  C8_invalid_credentials_no_disk_activity (listOS (fun _ => "")) []
    (Or.inr ⟨by decide, by decide⟩)

/-! ## Claims C1 and C6: the version gate of `Execute` -/

/-- Claim C1: with `init.json` absent or holding a readable InitOutput, `Execute` ends
in `log.Fatalf` at its version gate if and only if `init.json` is present and its
version differs from the running version; with `init.json` absent, and with equal
versions, it goes on to `rootCmd.Execute()`. -/
theorem C1_Execute_version_gate {ρ : Type} (store : String → FileState)
    (rootCmdExecute : Globals → ρ) (g : Globals) (v : String)
    (hstate : store (outputPath g.workDir "" "init") = .absent ∨
      ∃ out, store (outputPath g.workDir "" "init") = .record out) :
    ((∃ msg, Execute (loadJSON store) rootCmdExecute g v = .error msg) ↔
      ∃ out, store (outputPath g.workDir "" "init") = .record out ∧ out.Version ≠ v) ∧
    (store (outputPath g.workDir "" "init") = .absent →
      Execute (loadJSON store) rootCmdExecute g v =
        .ok (rootCmdExecute { g with cliVersion := v })) ∧
    (∀ out, store (outputPath g.workDir "" "init") = .record out → out.Version = v →
      Execute (loadJSON store) rootCmdExecute g v =
        .ok (rootCmdExecute { g with cliVersion := v })) := by
  rcases hstate with h | ⟨out, h⟩
  · simp [Execute, loadJSON, h]
  · by_cases hv : out.Version = v
    · simp [Execute, loadJSON, h, hv]
    · simp [Execute, loadJSON, h, hv]

theorem C1_Execute_version_gate_witness :
    ∃ msg, Execute (loadJSON (fun _ => FileState.record ⟨"1.0.0", []⟩)) (fun _ => ())
      ⟨"/home/u/mp", "", "github", ""⟩ "1.1.0" = .error msg :=
  (C1_Execute_version_gate (fun _ => FileState.record ⟨"1.0.0", []⟩) (fun _ => ())
    ⟨"/home/u/mp", "", "github", ""⟩ "1.1.0" (Or.inr ⟨_, rfl⟩)).1.mpr
    ⟨⟨"1.0.0", []⟩, rfl, by decide⟩

/-- Claim C6: when `loadJSON` of `init.json` returns an error that `os.IsNotExist`
rejects, `Execute` ends in `log.Fatal` with that error and does not run
`rootCmd.Execute()`, whatever the running version. -/
theorem C6_Execute_unreadable_fatal {ρ : Type} (load : String → Except GoError Output)
    (rootCmdExecute : Globals → ρ) (g : Globals) (v : String) (err : GoError)
    (hload : load (outputPath g.workDir "" "init") = .error err)
    (hne : err.isNotExist = false) :
    Execute load rootCmdExecute g v = .error err.msg := by
  simp [Execute, hload, hne]

theorem C6_Execute_unreadable_fatal_witness :
    Execute (loadJSON (fun _ => FileState.unparsable "unexpected end of JSON input"))
      (fun _ => ()) ⟨"/home/u/mp", "", "github", ""⟩ "1.1.0" =
      .error "unexpected end of JSON input" :=
  C6_Execute_unreadable_fatal
    (loadJSON (fun _ => FileState.unparsable "unexpected end of JSON input"))
    (fun _ => ()) ⟨"/home/u/mp", "", "github", ""⟩ "1.1.0"
    ⟨"unexpected end of JSON input", false⟩ rfl rfl

/-! ## Claims C5, C7 and C3: `initCmd.Run` -/

/-- The four ways `initCmdRun` can end. -/
theorem initCmdRun_cases (Initialize : Input → Except String Output)
    (writeJSON : Output → String → Option String) (g : Globals) (args : List String) :
    (((args.length = 0 ∧ g.initFlagReposFile = "") ∨
        (args.length = 1 ∧ g.initFlagReposFile ≠ "")) ∧
      initCmdRun Initialize writeJSON g args = ⟨[], some usageMsg⟩) ∨
    (¬ ((args.length = 0 ∧ g.initFlagReposFile = "") ∨
        (args.length = 1 ∧ g.initFlagReposFile ≠ "")) ∧
      ∃ input : Input,
        input = { Query := args.headD "", WorkDir := g.workDir, Version := g.cliVersion,
                  RepoProvider := g.repoProviderFlag,
                  ReposFromFile := g.initFlagReposFile } ∧
        ((∃ err, Initialize input = .error err ∧
            initCmdRun Initialize writeJSON g args =
              ⟨[.callInitialize input], some err⟩) ∨
         (∃ output err, Initialize input = .ok output ∧
            writeJSON output (outputPath g.workDir "" "init") = some err ∧
            initCmdRun Initialize writeJSON g args =
              ⟨[.callInitialize input,
                .writeJSON output (outputPath g.workDir "" "init")], some err⟩) ∨
         (∃ output, Initialize input = .ok output ∧
            writeJSON output (outputPath g.workDir "" "init") = none ∧
            initCmdRun Initialize writeJSON g args =
              ⟨[.callInitialize input,
                .writeJSON output (outputPath g.workDir "" "init")] ++
                output.Repos.map (fun repo => .println repo.Name), none⟩))) := by
  by_cases h1 : args.length = 0 ∧ g.initFlagReposFile = ""
  · left; exact ⟨Or.inl h1, by simp [initCmdRun, h1]⟩
  by_cases h2 : args.length = 1 ∧ g.initFlagReposFile ≠ ""
  · left; exact ⟨Or.inr h2, by rw [initCmdRun, if_neg h1, if_pos h2]⟩
  right
  refine ⟨by tauto, _, rfl, ?_⟩
  have hq : (if 0 < args.length then args.headD "" else "") = args.headD "" := by
    cases args <;> simp
  generalize hin :
    ({ Query := args.headD "", WorkDir := g.workDir, Version := g.cliVersion,
       RepoProvider := g.repoProviderFlag,
       ReposFromFile := g.initFlagReposFile } : Input) = input
  have hrun : initCmdRun Initialize writeJSON g args =
      match Initialize input with
      | .error err => { events := [.callInitialize input], fatal := some err }
      | .ok output =>
        match writeJSON output (outputPath g.workDir "" "init") with
        | some err =>
          { events := [.callInitialize input,
              .writeJSON output (outputPath g.workDir "" "init")], fatal := some err }
        | none =>
          { events := [.callInitialize input,
              .writeJSON output (outputPath g.workDir "" "init")]
              ++ output.Repos.map (fun repo => .println repo.Name), fatal := none } := by
    rw [initCmdRun, if_neg h1, if_neg h2]
    simp only [hq, hin]
  rw [hrun]
  cases hI : Initialize input with
  | error err => left; exact ⟨err, rfl, rfl⟩
  | ok output =>
    right
    cases hW : writeJSON output (outputPath g.workDir "" "init") with
    | some err => left; exact ⟨output, err, rfl, hW, by simp only [hW]⟩
    | none => right; exact ⟨output, rfl, hW, by simp only [hW]⟩

theorem foldl_append_string (l : List String) (acc : String) :
    l.foldl (fun r s => r ++ s) acc = acc ++ l.foldl (fun r s => r ++ s) "" := by
  induction l generalizing acc with
  | nil => simp
  | cons a t ih => rw [List.foldl_cons, List.foldl_cons, ih, ih ("" ++ a)]; simp [String.append_assoc]

theorem join_cons_string (a : String) (l : List String) :
    String.join (a :: l) = a ++ String.join l := by
  unfold String.join
  rw [List.foldl_cons, foldl_append_string]; simp

theorem initializeCalls_println (l : List Repo) :
    initializeCalls (l.map (fun repo => Event.println repo.Name)) = [] := by
  induction l with
  | nil => rfl
  | cons a t ih => simpa [initializeCalls] using ih

theorem written_println (l : List Repo) :
    written (l.map (fun repo => Event.println repo.Name)) = [] := by
  induction l with
  | nil => rfl
  | cons a t ih => simpa [written] using ih

theorem printed_println (l : List Repo) :
    printed (l.map (fun repo => Event.println repo.Name)) = l.map (fun repo => repo.Name) := by
  induction l with
  | nil => rfl
  | cons a t ih => simpa [printed] using ih

theorem stdout_println (l : List Repo) :
    stdout (l.map (fun repo => Event.println repo.Name)) =
      String.join (l.map (fun repo => repo.Name ++ "\n")) := by
  induction l with
  | nil => rfl
  | cons a t ih => simp [stdout, join_cons_string, ih]

/-- The calls of `Initialize` in a run that passed the usage check: exactly one. -/
theorem initCmdRun_calls (Initialize : Input → Except String Output)
    (writeJSON : Output → String → Option String) (g : Globals) (args : List String)
    (h : ¬ ((args.length = 0 ∧ g.initFlagReposFile = "") ∨
        (args.length = 1 ∧ g.initFlagReposFile ≠ ""))) :
    initializeCalls (initCmdRun Initialize writeJSON g args).events =
      [{ Query := args.headD "", WorkDir := g.workDir, Version := g.cliVersion,
         RepoProvider := g.repoProviderFlag, ReposFromFile := g.initFlagReposFile }] := by
  rcases initCmdRun_cases Initialize writeJSON g args with ⟨hc, _⟩ | ⟨_, input, hin, hr⟩
  · exact absurd hc h
  · subst hin
    rcases hr with ⟨err, _, hr⟩ | ⟨output, err, _, _, hr⟩ | ⟨output, _, _, hr⟩
    · rw [hr]; simp [initializeCalls]
    · rw [hr]; simp [initializeCalls]
    · rw [hr]; simp [initializeCalls, initializeCalls_println]

/-- Claim C5: for at most one argument, `initCmd.Run` ends in the fatal usage error,
before any call, exactly when no argument is given and the file flag is empty or an
argument is given and the file flag is not empty; otherwise it calls `Initialize`
with `Query` the argument (`""` when the file is used) and `ReposFromFile` the
flag. -/
theorem C5_initCmdRun_inputs (Initialize : Input → Except String Output)
    (writeJSON : Output → String → Option String) (g : Globals) (args : List String)
    (hlen : args.length ≤ 1) :
    (initCmdRun Initialize writeJSON g args = ⟨[], some usageMsg⟩ ↔
      (args = [] ∧ g.initFlagReposFile = "") ∨ (args ≠ [] ∧ g.initFlagReposFile ≠ "")) ∧
    (∀ q, args = [q] → g.initFlagReposFile = "" →
      initializeCalls (initCmdRun Initialize writeJSON g args).events =
        [{ Query := q, WorkDir := g.workDir, Version := g.cliVersion,
           RepoProvider := g.repoProviderFlag, ReposFromFile := "" }]) ∧
    (args = [] → g.initFlagReposFile ≠ "" →
      initializeCalls (initCmdRun Initialize writeJSON g args).events =
        [{ Query := "", WorkDir := g.workDir, Version := g.cliVersion,
           RepoProvider := g.repoProviderFlag, ReposFromFile := g.initFlagReposFile }]) := by
  have hcond : ((args.length = 0 ∧ g.initFlagReposFile = "") ∨
        (args.length = 1 ∧ g.initFlagReposFile ≠ "")) ↔
      ((args = [] ∧ g.initFlagReposFile = "") ∨ (args ≠ [] ∧ g.initFlagReposFile ≠ "")) := by
    rcases args with _ | ⟨q, _ | ⟨q2, t⟩⟩
    · simp
    · simp
    · simp at hlen
  refine ⟨?_, ?_, ?_⟩
  · rw [← hcond]
    constructor
    · intro hr
      by_contra hc
      have := initCmdRun_calls Initialize writeJSON g args hc
      rw [hr] at this
      simp [initializeCalls] at this
    · intro hc
      rcases initCmdRun_cases Initialize writeJSON g args with ⟨_, hr⟩ | ⟨hn, _⟩
      · exact hr
      · exact absurd hc hn
  · intro q hq hf
    have := initCmdRun_calls Initialize writeJSON g args (by rw [hcond]; simp [hq, hf])
    rw [this, hq, hf]; rfl
  · intro ha hf
    have := initCmdRun_calls Initialize writeJSON g args (by rw [hcond]; simp [ha, hf])
    rw [this, ha]; rfl

theorem C5_initCmdRun_inputs_witness :
    initializeCalls (initCmdRun (fun _ => .error "search failed") (fun _ _ => none)
      ⟨"/home/u/mp", "1.0.0", "github", ""⟩ ["org:Clever"]).events =
      [{ Query := "org:Clever", WorkDir := "/home/u/mp", Version := "1.0.0",
         RepoProvider := "github", ReposFromFile := "" }] :=
  (C5_initCmdRun_inputs (fun _ => .error "search failed") (fun _ _ => none)
    ⟨"/home/u/mp", "1.0.0", "github", ""⟩ ["org:Clever"] (by decide)).2.1
    "org:Clever" rfl rfl

/-- Claim C7: in a run of `initCmd.Run` that passes the usage check, when `Initialize`
returns a record and `writeJSON` writes it to `init.json`, the run returns, that
record is the one written, and standard output holds exactly the `Name` of each of
its repositories followed by a newline, in order (so `org/a`, `org/b` print `org/a`
then `org/b`); when `Initialize` returns an error, and when `writeJSON` does, the run
ends in `log.Fatal` with that error and nothing was printed.  Nothing is printed on
the usage error either. -/
theorem C7_initCmdRun_stdout (Initialize : Input → Except String Output)
    (writeJSON : Output → String → Option String) (g : Globals) (args : List String) :
    ((args.length = 0 ∧ g.initFlagReposFile = "") ∨
        (args.length = 1 ∧ g.initFlagReposFile ≠ "") →
      printed (initCmdRun Initialize writeJSON g args).events = [] ∧
      stdout (initCmdRun Initialize writeJSON g args).events = "") ∧
    (¬ ((args.length = 0 ∧ g.initFlagReposFile = "") ∨
        (args.length = 1 ∧ g.initFlagReposFile ≠ "")) →
      (∀ output,
        Initialize { Query := args.headD "", WorkDir := g.workDir, Version := g.cliVersion,
                     RepoProvider := g.repoProviderFlag,
                     ReposFromFile := g.initFlagReposFile } = .ok output →
        writeJSON output (outputPath g.workDir "" "init") = none →
        (initCmdRun Initialize writeJSON g args).fatal = none ∧
        written (initCmdRun Initialize writeJSON g args).events =
          [(output, outputPath g.workDir "" "init")] ∧
        printed (initCmdRun Initialize writeJSON g args).events =
          output.Repos.map (fun repo => repo.Name) ∧
        stdout (initCmdRun Initialize writeJSON g args).events =
          String.join (output.Repos.map (fun repo => repo.Name ++ "\n"))) ∧
      (∀ err,
        Initialize { Query := args.headD "", WorkDir := g.workDir, Version := g.cliVersion,
                     RepoProvider := g.repoProviderFlag,
                     ReposFromFile := g.initFlagReposFile } = .error err →
        (initCmdRun Initialize writeJSON g args).fatal = some err ∧
        written (initCmdRun Initialize writeJSON g args).events = [] ∧
        printed (initCmdRun Initialize writeJSON g args).events = [] ∧
        stdout (initCmdRun Initialize writeJSON g args).events = "") ∧
      (∀ output err,
        Initialize { Query := args.headD "", WorkDir := g.workDir, Version := g.cliVersion,
                     RepoProvider := g.repoProviderFlag,
                     ReposFromFile := g.initFlagReposFile } = .ok output →
        writeJSON output (outputPath g.workDir "" "init") = some err →
        (initCmdRun Initialize writeJSON g args).fatal = some err ∧
        printed (initCmdRun Initialize writeJSON g args).events = [] ∧
        stdout (initCmdRun Initialize writeJSON g args).events = "")) := by
  rcases initCmdRun_cases Initialize writeJSON g args with ⟨hc, hu⟩ | ⟨hn, input, hin, hr⟩
  · exact ⟨fun _ => by rw [hu]; simp [printed, stdout], fun h => absurd hc h⟩
  subst hin
  refine ⟨fun h => absurd h hn, fun _ => ⟨?_, ?_, ?_⟩⟩
  · intro output hI hW
    rcases hr with ⟨err, hI2, _⟩ | ⟨out2, err, hI2, hW2, _⟩ | ⟨out2, hI2, _, hr⟩
    · rw [hI] at hI2; cases hI2
    · rw [hI] at hI2; cases hI2; rw [hW] at hW2; cases hW2
    · rw [hI] at hI2; cases hI2
      rw [hr]
      refine ⟨rfl, ?_, ?_, ?_⟩
      · simp [written, written_println]
      · simp [printed, printed_println]
      · simp [stdout, stdout_println]
  · intro err hI
    rcases hr with ⟨err2, hI2, hr⟩ | ⟨out2, err2, hI2, _, _⟩ | ⟨out2, hI2, _, _⟩
    · rw [hI] at hI2; cases hI2
      rw [hr]; simp [written, printed, stdout]
    · rw [hI] at hI2; cases hI2
    · rw [hI] at hI2; cases hI2
  · intro output err hI hW
    rcases hr with ⟨err2, hI2, _⟩ | ⟨out2, err2, hI2, hW2, hr⟩ | ⟨out2, hI2, hW2, _⟩
    · rw [hI] at hI2; cases hI2
    · rw [hI] at hI2; cases hI2; rw [hW] at hW2; cases hW2
      rw [hr]; simp [printed, stdout]
    · rw [hI] at hI2; cases hI2; rw [hW] at hW2; cases hW2

theorem C7_initCmdRun_stdout_witness :
    (initCmdRun (fun _ => .ok ⟨"1.0.0", [⟨"org/a", []⟩, ⟨"org/b", []⟩]⟩) (fun _ _ => none)
      ⟨"/home/u/mp", "1.0.0", "github", "repos.txt"⟩ []).fatal = none ∧
    written (initCmdRun (fun _ => .ok ⟨"1.0.0", [⟨"org/a", []⟩, ⟨"org/b", []⟩]⟩)
      (fun _ _ => none) ⟨"/home/u/mp", "1.0.0", "github", "repos.txt"⟩ []).events =
      [(⟨"1.0.0", [⟨"org/a", []⟩, ⟨"org/b", []⟩]⟩, outputPath "/home/u/mp" "" "init")] ∧
    printed (initCmdRun (fun _ => .ok ⟨"1.0.0", [⟨"org/a", []⟩, ⟨"org/b", []⟩]⟩)
      (fun _ _ => none) ⟨"/home/u/mp", "1.0.0", "github", "repos.txt"⟩ []).events =
      ["org/a", "org/b"] ∧
    stdout (initCmdRun (fun _ => .ok ⟨"1.0.0", [⟨"org/a", []⟩, ⟨"org/b", []⟩]⟩)
      (fun _ _ => none) ⟨"/home/u/mp", "1.0.0", "github", "repos.txt"⟩ []).events =
      "org/a\norg/b\n" :=
  ((C7_initCmdRun_stdout (fun _ => .ok ⟨"1.0.0", [⟨"org/a", []⟩, ⟨"org/b", []⟩]⟩)
    (fun _ _ => none) ⟨"/home/u/mp", "1.0.0", "github", "repos.txt"⟩ []).2 (by decide)).1
    ⟨"1.0.0", [⟨"org/a", []⟩, ⟨"org/b", []⟩]⟩ rfl rfl

theorem Execute_ok {ρ : Type} (load : String → Except GoError Output)
    (rootCmdExecute : Globals → ρ) (g : Globals) (v : String) (r : ρ)
    (h : Execute load rootCmdExecute g v = .ok r) :
    r = rootCmdExecute { g with cliVersion := v } := by
  unfold Execute at h
  simp only at h
  split at h
  · split_ifs at h
    simp only [Except.ok.injEq] at h
    exact h.symm
  · split_ifs at h
    simp only [Except.ok.injEq] at h
    exact h.symm

/-- Claim C3: when the package `init` function succeeds, `repoProviderFlag` is
`"github"` if only GITHUB_API_TOKEN is non-empty and `"gitlab"` if only
GITLAB_API_TOKEN is non-empty, hence one of the two, and every call of `Initialize`
made by the init command of that process carries it as `RepoProvider`. -/
theorem C3_provider_selected {σ : Type} (os : OS σ) (fs : σ) (g : Globals)
    (h : (init os fs).result = .ok g) :
    (os.getenv "GITHUB_API_TOKEN" ≠ "" ∧ os.getenv "GITLAB_API_TOKEN" = "" →
      g.repoProviderFlag = "github") ∧
    (os.getenv "GITLAB_API_TOKEN" ≠ "" ∧ os.getenv "GITHUB_API_TOKEN" = "" →
      g.repoProviderFlag = "gitlab") ∧
    (g.repoProviderFlag = "github" ∨ g.repoProviderFlag = "gitlab") ∧
    (∀ (load : String → Except GoError Output) (Initialize : Input → Except String Output)
        (writeJSON : Output → String → Option String) (version fileFlag : String)
        (args : List String) (r : RunResult),
      mpInit os fs load Initialize writeJSON version fileFlag args = .ok (.ok r) →
      ∀ i ∈ initializeCalls r.events, i.RepoProvider = g.repoProviderFlag) := by
  have hsel : selectProvider os.getenv = .ok g.repoProviderFlag := by
    unfold init at h
    cases hs : selectProvider os.getenv with
    | error msg => rw [hs] at h; simp at h
    | ok p => rw [hs] at h; rw [initWorkDir_ok_flag os fs p g h]
  have hp := selectProvider_ok os.getenv _ hsel
  refine ⟨?_, ?_, ?_, ?_⟩
  · rintro ⟨h1, h2⟩
    rcases hp with ⟨_, _, hp⟩ | ⟨hp, _, _⟩
    · exact hp
    · exact absurd hp h1
  · rintro ⟨h1, h2⟩
    rcases hp with ⟨_, hp, _⟩ | ⟨_, _, hp⟩
    · exact absurd hp h1
    · exact hp
  · rcases hp with ⟨_, _, hp⟩ | ⟨_, _, hp⟩
    · exact Or.inl hp
    · exact Or.inr hp
  · intro load Initialize writeJSON version fileFlag args r hr i hi
    unfold mpInit at hr
    rw [h] at hr
    have hrun := Execute_ok _ _ _ _ _ hr
    unfold rootCmdExecuteInit at hrun
    split_ifs at hrun with hargs
    simp only [Except.ok.injEq] at hrun
    rw [hrun] at hi
    by_cases hc : (args.length = 0 ∧ fileFlag = "") ∨ (args.length = 1 ∧ fileFlag ≠ "")
    · rcases initCmdRun_cases Initialize writeJSON
        { g with cliVersion := version, initFlagReposFile := fileFlag } args with
        ⟨_, hu⟩ | ⟨hn, _⟩
      · rw [hu] at hi; simp [initializeCalls] at hi
      · exact absurd hc hn
    · rw [initCmdRun_calls Initialize writeJSON _ args hc] at hi
      simp only [List.mem_singleton] at hi
      rw [hi]

theorem C3_provider_selected_witness :
    (init (listOS (fun key => if key = "GITHUB_API_TOKEN" then "tok" else "")) []).result =
      .ok ⟨"/home/u/mp", "", "github", ""⟩ ∧
    (⟨"/home/u/mp", "", "github", ""⟩ : Globals).repoProviderFlag = "github" ∧
    mpInit (listOS (fun key => if key = "GITHUB_API_TOKEN" then "tok" else "")) []
      (loadJSON (fun _ => FileState.absent)) (fun _ => .error "search failed")
      (fun _ _ => none) "1.0.0" "" ["org:Clever"] =
      .ok (.ok ⟨[.callInitialize ⟨"org:Clever", "/home/u/mp", "1.0.0", "github", ""⟩],
        some "search failed"⟩) ∧
    (⟨"org:Clever", "/home/u/mp", "1.0.0", "github", ""⟩ : Input).RepoProvider =
      (⟨"/home/u/mp", "", "github", ""⟩ : Globals).repoProviderFlag :=
  ⟨rfl,
    (C3_provider_selected
      (listOS (fun key => if key = "GITHUB_API_TOKEN" then "tok" else "")) []
      ⟨"/home/u/mp", "", "github", ""⟩ rfl).1 ⟨by decide, by decide⟩,
    rfl,
    (C3_provider_selected
      (listOS (fun key => if key = "GITHUB_API_TOKEN" then "tok" else "")) []
      ⟨"/home/u/mp", "", "github", ""⟩ rfl).2.2.2
      (loadJSON (fun _ => FileState.absent)) (fun _ => .error "search failed")
      (fun _ _ => none) "1.0.0" "" ["org:Clever"]
      ⟨[.callInitialize ⟨"org:Clever", "/home/u/mp", "1.0.0", "github", ""⟩],
        some "search failed"⟩ rfl
      ⟨"org:Clever", "/home/u/mp", "1.0.0", "github", ""⟩ (by simp [initializeCalls])⟩

/-! ## Claim C9: `repoLimiter` -/

/-- Claim C9, the code at the failing input: no receive from `repoLimiter.C` for the
first 1400 ms, then two receives at 1400 ms.  Whatever the latencies of the ticks
(below 680 ms), the first receive finds the tick of 720 ms in the channel and
completes at once, the second completes when the tick due at 1440 ms is sent: the two
permits are less than 720 ms apart, 40 ms with no latency. -/
theorem C9_buffered_tick_burst (latency : Nat → Nat)
    (h1 : latency 1 ≤ 680 * Millisecond) (h2 : latency 2 < 680 * Millisecond) :
    repoLimiterPermits latency [1400 * Millisecond, 1400 * Millisecond] =
      [1400 * Millisecond, 1440 * Millisecond + latency 2] ∧
    1440 * Millisecond + latency 2 < 1400 * Millisecond + 720 * Millisecond := by
  simp only [Millisecond] at h1 h2
  have e1 : nextTick repoLimiterPeriod latency 0 = 720000000 + latency 1 := by
    simp [nextTick, tickSent, repoLimiterPeriod, Millisecond]
  have e2 : nextTick repoLimiterPeriod latency 1400000000 = 1440000000 + latency 2 := by
    have hdiv : 1400000000 / (720 * 1000000) = 1 := by norm_num
    simp only [nextTick, tickSent, repoLimiterPeriod, Millisecond, hdiv]
    rw [if_neg (by omega)]
  have m1 : max 1400000000 (720000000 + latency 1) = 1400000000 := max_eq_left (by omega)
  have m2 : max 1400000000 (1440000000 + latency 2) = 1440000000 + latency 2 :=
    max_eq_right (by omega)
  refine ⟨?_, by simp only [Millisecond]; omega⟩
  simp only [repoLimiterPermits, permitTimes]
  simp only [Millisecond, Nat.reduceMul] at e1 e2 ⊢
  rw [e1, m1, e2, m2]

theorem C9_buffered_tick_burst_witness :
    repoLimiterPermits (fun _ => 0) [1400 * Millisecond, 1400 * Millisecond] =
      [1400 * Millisecond, 1440 * Millisecond] ∧
    1440 * Millisecond < 1400 * Millisecond + 720 * Millisecond :=
  C9_buffered_tick_burst (fun _ => 0) (by decide) (by decide)

/-! ## The workflow directory path given by `filepath.Abs` -/

theorem backtrackLoop_stop (out : List Char) (m : Nat) (hm : 1 ≤ m)
    (hstop : m = 1 ∨ out.getD m '/' = '/') :
    ∀ k, (∀ j, m < j → j ≤ m + k → out.getD j '/' ≠ '/') →
      backtrackLoop out 1 (m + k) = m := by
  intro k
  induction k with
  | zero =>
    intro _
    obtain ⟨m', rfl⟩ : ∃ m', m = m' + 1 := ⟨m - 1, by omega⟩
    simp only [Nat.add_zero, backtrackLoop]
    rw [if_neg]
    rintro ⟨h1, h2⟩
    rcases hstop with h | h
    · omega
    · exact h2 h
  | succ k ih =>
    intro hns
    rw [← Nat.add_assoc]
    simp only [backtrackLoop]
    rw [if_pos ⟨by omega, hns (m + k + 1) (by omega) (by omega)⟩]
    exact ih (fun j h1 h2 => hns j h1 (by omega))

theorem getD_append_noSlash (p s : List Char) (hs : '/' ∉ s) (j : Nat)
    (h1 : p.length ≤ j) (h2 : j < p.length + s.length) :
    (p ++ s).getD j '/' ≠ '/' := by
  rw [List.getD_eq_getElem _ _ (by simp; omega)]
  rw [List.getElem_append_right h1]
  intro h
  exact hs (h ▸ List.getElem_mem _)

theorem dotdotStep_rooted (st : CleanState) (h : RootedInv st) :
    RootedInv (dotdotStep true st) := by
  obtain ⟨hdd, segs, hall, hout⟩ := h
  unfold dotdotStep
  by_cases hlen : st.dotdot < st.out.length
  · rw [if_pos hlen]
    refine ⟨hdd, ?_⟩
    rcases List.eq_nil_or_concat segs with hnil | ⟨segs', s, hs⟩
    · subst hnil
      rw [hout, hdd] at hlen
      simp [joinSegs] at hlen
    · rw [List.concat_eq_append] at hs
      subst hs
      have hsg := hall s (by simp)
      have hsne : s ≠ [] := by intro h; subst h; simp [goodSeg] at hsg
      have hspos : 0 < s.length := List.length_pos.mpr hsne
      have hall' : ∀ x ∈ segs', goodSeg x = true ∧ '/' ∉ x :=
        fun x hx => hall x (List.mem_append_left _ hx)
      refine ⟨segs', hall', ?_⟩
      show st.out.take _ = _
      rw [hdd]
      by_cases hnil : segs' = []
      · subst hnil
        have ho : st.out = ['/'] ++ s := by simp [hout, joinSegs, slashJoin]
        have hw : st.out.length - 1 = 1 + (s.length - 1) := by
          rw [ho]; simp; omega
        rw [hw, backtrackLoop_stop st.out 1 le_rfl (Or.inl rfl) (s.length - 1)]
        · rw [ho]; simp [joinSegs]
        · intro j h1 h2
          rw [ho]
          exact getD_append_noSlash ['/'] s hsg.2 j (by simp; omega) (by simp; omega)
      · have ho : st.out = ('/' :: joinSegs segs' ++ ['/']) ++ s := by
          rw [hout, joinSegs_append _ _ hnil]; simp [slashJoin]
        have hw : st.out.length - 1 = ('/' :: joinSegs segs').length + s.length := by
          rw [ho]; simp; omega
        have hm : (st.out).getD ('/' :: joinSegs segs').length '/' = '/' := by
          rw [ho, List.append_assoc, List.getD_eq_getElem _ _ (by simp)]
          rw [List.getElem_append_right (le_refl _)]
          simp
        rw [hw, backtrackLoop_stop st.out _ (by simp) (Or.inr hm) s.length]
        · rw [ho, List.append_assoc, List.take_left]
        · intro j h1 h2
          rw [ho]
          exact getD_append_noSlash _ s hsg.2 j (by simp at h1 ⊢; omega) (by simp at h2 ⊢; omega)
  · rw [if_neg hlen]
    simp only [Bool.true_eq_false, if_false]
    exact ⟨hdd, segs, hall, hout⟩

theorem elemStep_rooted (st : CleanState) (h : RootedInv st) (c : Char) (t : List Char)
    (h1 : c ≠ '/') (h2 : ¬ (c = '.' ∧ (t = [] ∨ t.head? = some '/')))
    (h3 : ¬ (c = '.' ∧ t.head? = some '.' ∧ (t.tail = [] ∨ t.tail.head? = some '/'))) :
    RootedInv (elemStep true (c :: t) st) := by
  obtain ⟨hdd, segs, hall, hout⟩ := h
  have hb : (c != '/') = true := by simp [h1]
  have htw : (c :: t).takeWhile (fun c => c != '/') = c :: t.takeWhile (fun c => c != '/') := by
    simp only [List.takeWhile_cons, hb, if_true]
  have hno : '/' ∉ c :: t.takeWhile (fun c => c != '/') := by
    intro hm
    rcases List.mem_cons.mp hm with h | h
    · exact h1 h.symm
    · have := List.mem_takeWhile_imp h
      simp at this
  have hgood : goodSeg (c :: t.takeWhile (fun c => c != '/')) = true := by
    simp only [goodSeg, Bool.and_eq_true, decide_eq_true_eq]
    refine ⟨⟨by simp, ?_⟩, ?_⟩
    · intro heq
      simp only [List.cons.injEq] at heq
      apply h2
      refine ⟨heq.1, ?_⟩
      cases t with
      | nil => exact Or.inl rfl
      | cons d u =>
        right
        by_cases hd : d = '/'
        · simp [hd]
        · have : (d != '/') = true := by simp [hd]
          simp [List.takeWhile_cons, this] at heq
    · intro heq
      simp only [List.cons.injEq] at heq
      apply h3
      cases t with
      | nil => simp at heq
      | cons d u =>
        by_cases hd : d = '/'
        · simp [hd] at heq
        · have hdb : (d != '/') = true := by simp [hd]
          simp only [List.takeWhile_cons, hdb, if_true, List.cons.injEq] at heq
          refine ⟨heq.1, by simp [heq.2.1], ?_⟩
          cases u with
          | nil => exact Or.inl rfl
          | cons e v =>
            right
            by_cases he : e = '/'
            · simp [he]
            · have : (e != '/') = true := by simp [he]
              simp [List.takeWhile_cons, this] at heq
  rw [elemStep_out, htw]
  refine ⟨hdd, segs ++ [c :: t.takeWhile (fun c => c != '/')], ?_, ?_⟩
  · intro x hx
    rcases List.mem_append.mp hx with h | h
    · exact hall x h
    · simp only [List.mem_singleton] at h; subst h; exact ⟨hgood, hno⟩
  · show st.out ++ sep true st ++ _ = _
    by_cases hnil : segs = []
    · subst hnil
      simp [sep, hout, joinSegs, slashJoin]
    · have hj := joinSegs_ne_nil segs hnil hall
      have hl : st.out.length ≠ 1 := by
        rw [hout]; simp; exact hj
      rw [joinSegs_append _ _ hnil]
      simp [sep, hout, slashJoin, hj]

/-- On a rooted path the loop of `path.Clean` keeps the buffer a clean rooted path. -/
theorem cleanRun_rooted :
    ∀ (n : Nat) (rest : List Char) (st : CleanState), rest.length ≤ n →
      RootedInv st → RootedInv (cleanRun true rest st) := by
  intro n
  induction n with
  | zero =>
    intro rest st hlen hinv
    have : rest = [] := List.length_eq_zero.mp (Nat.le_zero.mp hlen)
    subst this
    rwa [cleanRun_nil]
  | succ n ih =>
    intro rest st hlen hinv
    cases rest with
    | nil => rwa [cleanRun_nil]
    | cons c t =>
      simp only [List.length_cons, Nat.add_le_add_iff_right] at hlen
      rw [cleanRun_cons]
      split_ifs with h1 h2 h3
      · exact ih t st hlen hinv
      · exact ih t st hlen hinv
      · exact ih _ _ ((by simp : t.tail.length ≤ t.length).trans hlen) (dotdotStep_rooted st hinv)
      · refine ih _ _ ?_ (elemStep_rooted st hinv c t h1 h2 h3)
        have hb : (c != '/') = true := by simp [h1]
        simp only [List.dropWhile, hb]
        exact (List.dropWhile_sublist _).length_le.trans hlen

/-- On Unix, with a rooted current directory, `filepath.Abs("./mp")` is a clean
directory path. -/
theorem filepathAbs_cleanDir (wd w : String) (hwd : wd.data.head? = some '/')
    (h : filepathAbs (.ok wd) "./mp" = .ok w) : cleanDir w := by
  obtain ⟨rest, hrest⟩ : ∃ rest, wd.data = '/' :: rest := by
    cases hd : wd.data with
    | nil => rw [hd] at hwd; simp at hwd
    | cons c t => rw [hd] at hwd; simp at hwd; exact ⟨t, by rw [hwd]⟩
  have hmp : goodSeg ['m', 'p'] = true ∧ '/' ∉ ['m', 'p'] := by decide
  have hpath : "./mp".data = ['.', '/', 'm', 'p'] := rfl
  have hne : ('/' :: rest) ++ '/' :: ['.', '/', 'm', 'p'] ≠ [] := by simp
  obtain ⟨hdd, segs, hall, hout⟩ :=
    cleanRun_rooted rest.length rest ⟨['/'], 1⟩ le_rfl ⟨rfl, [], by simp, by simp [joinSegs]⟩
  have hrun : cleanRun true (rest ++ '/' :: ['.', '/', 'm', 'p']) ⟨['/'], 1⟩ =
      { cleanRun true rest ⟨['/'], 1⟩ with
        out := '/' :: joinSegs (segs ++ [['m', 'p']]) } := by
    rw [cleanRun_split true _ rest.length rest _ le_rfl, cleanRun_cons, if_pos rfl,
      cleanRun_cons, if_neg (by decide), if_pos (by decide), cleanRun_cons, if_pos rfl,
      cleanRun_seg true ['m', 'p'] _ hmp.1 hmp.2]
    by_cases hnil : segs = []
    · subst hnil
      simp [sep, hout, joinSegs, slashJoin]
    · have hj := joinSegs_ne_nil segs hnil hall
      rw [joinSegs_append _ _ hnil]
      simp [sep, hout, slashJoin, hj]
  have hjoin : filepathJoin [wd.data, ['.', '/', 'm', 'p']] =
      Clean (('/' :: rest) ++ '/' :: ['.', '/', 'm', 'p']) := by
    simp [filepathJoin, hrest, List.intercalate, List.intersperse]
  have hw : w.data = '/' :: joinSegs (segs ++ [['m', 'p']]) := by
    simp only [filepathAbs, hpath, List.head?_cons, Option.some.injEq,
      show ¬ ('.' = '/') by decide, if_false, Except.ok.injEq] at h
    rw [← h, hjoin, Clean_eq_cleanRun _ hne]
    simp only [List.cons_append, List.head?_cons, decide_True, if_true, List.tail_cons]
    rw [hrun]
    simp
  have hall2 : ∀ x ∈ segs ++ [['m', 'p']], goodSeg x = true ∧ '/' ∉ x := by
    intro x hx
    rcases List.mem_append.mp hx with hx | hx
    · exact hall x hx
    · simp only [List.mem_singleton] at hx; subst hx; exact hmp
  unfold cleanDir
  rw [hw]
  simp only [List.head?_cons, if_true, List.tail_cons]
  rw [segments_joinSegs _ (by simp) (fun x hx => (hall2 x hx).2)]
  exact fun x hx => (hall2 x hx).1

theorem initWorkDir_ok_workDir {σ : Type} (os : OS σ) (fs : σ) (p : String) (g : Globals)
    (h : (initWorkDir os fs p).result = .ok g) : os.abs fs "./mp" = .ok g.workDir := by
  unfold initWorkDir at h
  split at h
  · simp at h
  · rename_i w hw
    rw [hw]
    split_ifs at h
    · split at h
      · simp at h
      · simp at h; rw [← h]
    · simp at h; rw [← h]

/-- On Unix, with a rooted current directory, a successful package `init` leaves a
clean directory path in `workDir`. -/
theorem init_workDir_cleanDir {σ : Type} (os : OS σ) (fs : σ) (g : Globals) (wd : String)
    (habs : os.abs fs "./mp" = filepathAbs (.ok wd) "./mp")
    (hwd : wd.data.head? = some '/') (h : (init os fs).result = .ok g) :
    cleanDir g.workDir := by
  unfold init at h
  cases hs : selectProvider os.getenv with
  | error msg => rw [hs] at h; simp at h
  | ok p =>
    rw [hs] at h
    have := initWorkDir_ok_workDir os fs p g h
    rw [habs] at this
    exact filepathAbs_cleanDir wd g.workDir hwd this

end Microplane
